import Mathlib

/-!
Verification of the saltpack-style streaming encryption format implemented in
format.py.  The encode/decode protocol (header construction, per-recipient
key wrapping, chunked symmetric encryption with deterministic nonces,
optional per-group MAC tags, length-prefixed framing) is embedded shallowly.

The external primitives (libsodium via nacl.bindings, HMAC-SHA-512 via hmac,
and the msgpack serializer via umsgpack) are external collaborators of the
core; they are modelled symbolically: an authenticated-encryption ciphertext
is a term recording exactly the data the primitive binds (message, nonce and
keys), opening checks those bindings, and an HMAC tag is a term recording the
key, the MACed data and the truncation length.  Serialization of a structured
value composed with deserialization is the identity, so sealed per-recipient
payloads carry the key map directly.  The byte length of the msgpack encoding
of a frame payload (used only for the frame's length prefix, which the
decoder discards) is supplied as an uninterpreted function parameter.
-/

set_option linter.unusedVariables false

/-- Byte strings are lists of naturals (each byte a Nat). -/
abbrev Bytes := List Nat

/-- Big-endian encoding of an integer into a fixed number of bytes; models
Python int.to_bytes(n, byteorder=big) as used for chunk nonces
(format.py lines 122 and 163). -/
def toBytesBE : Nat → Nat → Bytes
  | 0, _ => []
  | n + 1, i => toBytesBE n (i / 256) ++ [i % 256]

/-- Big-endian decoding, inverse of toBytesBE on its range. -/
def fromBytesBE : Bytes → Nat
  | [] => 0
  | b :: bs => b * 256 ^ bs.length + fromBytesBE bs

/-- Symbolic model of nacl.bindings.crypto_scalarmult_base: derives the
public key from a private key.  Modelled as an injective tagging (9 is the
Curve25519 base point), so that public keys are distinct from private keys
and two distinct private keys have distinct public keys. -/
def crypto_scalarmult_base (sk : Bytes) : Bytes := 9 :: sk

/-- The per-recipient key map sealed to each recipient (format.py lines
99-104): key session_key always present, keys mac_group and mac_key present
exactly when MACs are in use.  Serialization/deserialization of this map by
umsgpack is modelled as the identity. -/
structure KeyMap where
  session_key : Bytes
  mac_group : Option Nat
  mac_key : Option Bytes
deriving DecidableEq

/-- Symbolic ciphertext of nacl.bindings.crypto_box: records the message and
everything the authenticated public-key encryption binds (nonce, the
sender's public key derived from the boxing secret key, and the recipient's
public key). -/
structure BoxCiphertext where
  message : KeyMap
  nonce : Bytes
  senderPub : Bytes
  recipientPub : Bytes
deriving DecidableEq

/-- Model of nacl.bindings.crypto_box (format.py lines 107-111). -/
def crypto_box (message : KeyMap) (nonce : Bytes) (sk pk : Bytes) : BoxCiphertext :=
  ⟨message, nonce, crypto_scalarmult_base sk, pk⟩

/-- Model of nacl.bindings.crypto_box_open (format.py lines 150-154):
succeeds exactly when the nonce and both key-pair bindings match, returning
the sealed message; otherwise the primitive raises, modelled as none. -/
def crypto_box_open (c : BoxCiphertext) (nonce : Bytes) (sk pk : Bytes) : Option KeyMap :=
  if c.nonce = nonce ∧ c.senderPub = pk ∧ c.recipientPub = crypto_scalarmult_base sk then
    some c.message
  else
    none

/-- Symbolic ciphertext of nacl.bindings.crypto_secretbox: records the
message, the nonce and the symmetric key. -/
structure SecretBoxCiphertext where
  message : Bytes
  nonce : Bytes
  key : Bytes
deriving DecidableEq

/-- Model of nacl.bindings.crypto_secretbox (format.py lines 124-127). -/
def crypto_secretbox (message nonce key : Bytes) : SecretBoxCiphertext :=
  ⟨message, nonce, key⟩

/-- Model of nacl.bindings.crypto_secretbox_open (format.py lines 176-179):
succeeds exactly when nonce and key match, otherwise raises (none). -/
def crypto_secretbox_open (c : SecretBoxCiphertext) (nonce key : Bytes) : Option Bytes :=
  if c.nonce = nonce ∧ c.key = key then some c.message else none

/-- Symbolic MAC tag: hmac.new(key, digestmod=sha512) updated with
nonce then the boxed chunk, digest truncated to truncLen bytes
(format.py lines 134-137 and 169-172).  The tag records the key, the MACed
data (nonce and ciphertext; the nonce is a fixed 24 bytes, so the pair is
equivalent to the concatenation) and the truncation length. -/
structure MacTag where
  key : Bytes
  nonce : Bytes
  ct : SecretBoxCiphertext
  truncLen : Nat
deriving DecidableEq

/-- The tag both sides compute for a chunk: HMAC-SHA-512 over
nonce then ciphertext, keyed by a group MAC key, truncated to 32 bytes. -/
def chunkMac (key nonce : Bytes) (ct : SecretBoxCiphertext) : MacTag :=
  ⟨key, nonce, ct, 32⟩

/-- A chunk frame payload (format.py lines 128-138): key chunk always
present, key macs present exactly when MACs are in use. -/
structure ChunkMap where
  chunk : SecretBoxCiphertext
  macs : Option (List MacTag)
deriving DecidableEq

/-- The wire value stored per recipient: 24-byte random nonce followed by
the crypto_box ciphertext (format.py line 112: nonce + boxed_bytes).  The
nonce is exactly 24 bytes, so the split at byte 24 performed by decode
(lines 151-152) recovers precisely these two components. -/
structure SealedBlob where
  nonce : Bytes
  boxed : BoxCiphertext
deriving DecidableEq

/-- The recipients map: a Python dict keyed by recipient public key,
modelled as an association list with in-place overwrite on key reuse. -/
abbrev RecipMap := List (Bytes × SealedBlob)

/-- Python dict assignment d[k] = v: if the key is present its value is
replaced in place, otherwise the pair is appended at the end (insertion
order is preserved). -/
def dictInsert (m : RecipMap) (k : Bytes) (v : SealedBlob) : RecipMap :=
  match m with
  | [] => [(k, v)]
  | (k₀, v₀) :: rest => if k₀ = k then (k, v) :: rest else (k₀, v₀) :: dictInsert rest k v

/-- Python dict lookup d[k], returning none on a missing key. -/
def dictLookup (m : RecipMap) (k : Bytes) : Option SealedBlob :=
  match m with
  | [] => none
  | (k₀, v) :: rest => if k₀ = k then some v else dictLookup rest k

/-- The header map (format.py lines 113-117). -/
structure Header where
  version : Nat
  sender : Bytes
  recipients : RecipMap
deriving DecidableEq

/-- A frame payload is either the header map or a chunk map. -/
inductive Payload where
  | header (h : Header)
  | chunk (c : ChunkMap)
deriving DecidableEq

/-- One length-prefixed frame (write_framed_msgpack, format.py lines 50-54):
the serialized byte length of the payload, then the payload itself. -/
structure Frame where
  frameLen : Nat
  payload : Payload
deriving DecidableEq

/-- The loop of chunks_with_empty (format.py lines 42-44): repeatedly take
100-byte slices while bytes remain.  The loop advances by 100 ≥ 1 bytes per
iteration, so the length of the message bounds the iteration count; fuel is
instantiated with that length below. -/
def chunksLoop (fuel : Nat) (msg : Bytes) : List Bytes :=
  match fuel with
  | 0 => []
  | fuel + 1 =>
    if msg = [] then [] else msg.take 100 :: chunksLoop fuel (msg.drop 100)

/-- chunks_with_empty (format.py lines 37-47): split into 100-byte chunks,
then append one empty chunk signifying the end of the message. -/
def chunks_with_empty (message : Bytes) : List Bytes :=
  chunksLoop message.length message ++ [[]]

/-- The random values encode draws from os.urandom, supplied explicitly:
the session key (line 88), one candidate MAC key per group index (line 96),
and one box nonce per (group index, position in group) (line 106). -/
structure EncodeRand where
  session_key : Bytes
  mac_key : Nat → Bytes
  box_nonce : Nat → Nat → Bytes

/-- Whether MACs are used: format.py line 92, need_macs = len(groups) > 1. -/
def needMacs (recipient_groups : List (List Bytes)) : Bool :=
  decide (1 < recipient_groups.length)

/-- The mac_keys list accumulated by encode (format.py lines 89, 95-97):
one fresh key per group when MACs are needed, otherwise empty. -/
def encodeMacKeys (rand : EncodeRand) (recipient_groups : List (List Bytes)) : List Bytes :=
  if needMacs recipient_groups then
    (List.range recipient_groups.length).map rand.mac_key
  else
    []

/-- The per-recipient map built at format.py lines 99-104. -/
def perRecipientMap (session_key : Bytes) (nm : Bool) (groupnum : Nat) (mac_key : Bytes) : KeyMap :=
  if nm then ⟨session_key, some groupnum, some mac_key⟩ else ⟨session_key, none, none⟩

/-- Sealing one recipient entry (format.py lines 105-112): box the
serialized per-recipient map to the recipient with a fresh nonce and store
nonce then ciphertext. -/
def sealRecipient (sender_private : Bytes) (km : KeyMap) (nonce : Bytes) (recipient : Bytes) : SealedBlob :=
  ⟨nonce, crypto_box km nonce sender_private recipient⟩

/-- The inner loop of format.py lines 98-112, inserting every recipient of
group g into the recipients map in order. -/
def insertGroupRecipients (sender_private : Bytes) (rand : EncodeRand) (nm : Bool) (g : Nat) :
    Nat → List Bytes → RecipMap → RecipMap
  | _, [], m => m
  | j, r :: rs, m =>
    insertGroupRecipients sender_private rand nm g (j + 1) rs
      (dictInsert m r
        (sealRecipient sender_private
          (perRecipientMap rand.session_key nm g (rand.mac_key g)) (rand.box_nonce g j) r))

/-- The outer loop of format.py lines 94-112 over enumerated groups. -/
def buildRecipientsFrom (sender_private : Bytes) (rand : EncodeRand) (nm : Bool) :
    Nat → List (List Bytes) → RecipMap → RecipMap
  | _, [], m => m
  | g, grp :: grps, m =>
    buildRecipientsFrom sender_private rand nm (g + 1) grps
      (insertGroupRecipients sender_private rand nm g 0 grp m)

/-- The full recipients map built by encode (format.py lines 93-112). -/
def encodeRecipients (sender_private : Bytes) (rand : EncodeRand)
    (recipient_groups : List (List Bytes)) : RecipMap :=
  buildRecipientsFrom sender_private rand (needMacs recipient_groups) 0 recipient_groups []

/-- One chunk frame (format.py lines 121-139): nonce is the 24-byte
big-endian chunk number, the chunk is secretboxed under the session key,
and when MACs are needed one truncated tag per group key is attached. -/
def mkChunkFrame (packbLen : Payload → Nat) (session_key : Bytes) (nm : Bool)
    (mac_keys : List Bytes) (chunknum : Nat) (chunk : Bytes) : Frame :=
  let nonce := toBytesBE 24 chunknum
  let boxed_chunk := crypto_secretbox chunk nonce session_key
  let cm : ChunkMap :=
    ⟨boxed_chunk,
     if nm then some (mac_keys.map (fun mk => chunkMac mk nonce boxed_chunk)) else none⟩
  ⟨packbLen (Payload.chunk cm), Payload.chunk cm⟩

/-- The chunk-writing loop of format.py lines 121-139, with the running
chunk number made explicit (enumerate starts it at 0). -/
def chunkFramesFrom (packbLen : Payload → Nat) (session_key : Bytes) (nm : Bool)
    (mac_keys : List Bytes) : Nat → List Bytes → List Frame
  | _, [] => []
  | i, c :: cs =>
    mkChunkFrame packbLen session_key nm mac_keys i c ::
      chunkFramesFrom packbLen session_key nm mac_keys (i + 1) cs

/-- encode (format.py lines 85-141).  The output stream is the header frame
followed by one frame per chunk of chunks_with_empty(message).  packbLen
stands for the byte length of the msgpack encoding of a payload, used only
to populate each frame's length prefix. -/
def encode (packbLen : Payload → Nat) (rand : EncodeRand) (sender_private : Bytes)
    (recipient_groups : List (List Bytes)) (message : Bytes) : List Frame :=
  let sender_public := crypto_scalarmult_base sender_private
  let nm := needMacs recipient_groups
  let recipients_map := encodeRecipients sender_private rand recipient_groups
  let header : Header := ⟨1, sender_public, recipients_map⟩
  ⟨packbLen (Payload.header header), Payload.header header⟩ ::
    chunkFramesFrom packbLen rand.session_key nm (encodeMacKeys rand recipient_groups) 0
      (chunks_with_empty message)

/-- Decode failures, following the taxonomy of spec section 7 mapped onto
the raise sites of format.py: unknownRecipient is the KeyError at line 149;
authenticationFailure is a crypto_box_open failure (line 150) or the MAC
mismatch raise at line 174; decryptionFailure is a crypto_secretbox_open
failure (line 176); malformedFrame covers a stream that ends early or a
frame whose payload lacks the shape the decoder destructures. -/
inductive DecodeError where
  | unknownRecipient
  | authenticationFailure
  | decryptionFailure
  | malformedFrame
deriving DecidableEq

/-- The MAC check of format.py lines 166-174: skipped when the key map
carried no mac_key; otherwise the tag at index mac_group of the frame's
macs list must equal the recomputed truncated HMAC (hmac.compare_digest,
a constant-time comparison, modelled as equality of symbolic tags). -/
def checkChunkMac (mac_key : Option Bytes) (mac_group : Option Nat) (nonce : Bytes)
    (cm : ChunkMap) : Except DecodeError Unit :=
  match mac_key with
  | none => Except.ok ()
  | some mk =>
    match cm.macs with
    | none => Except.error DecodeError.malformedFrame
    | some ms =>
      match mac_group with
      | none => Except.error DecodeError.malformedFrame
      | some g =>
        match ms.get? g with
        | none => Except.error DecodeError.malformedFrame
        | some their_mac =>
          if their_mac = chunkMac mk nonce cm.chunk then Except.ok ()
          else Except.error DecodeError.authenticationFailure

/-- The chunk loop of decode (format.py lines 160-185): for each frame in
order, derive the nonce from the running chunk number, check the MAC if
active, decrypt, stop returning the accumulated output on an empty
plaintext, otherwise append and continue.  A stream that ends before the
terminal empty chunk is malformed (umsgpack raises at end of stream). -/
def decodeChunks : List Frame → Bytes → Option Bytes → Option Nat → Nat → Bytes →
    Except DecodeError Bytes
  | [], _, _, _, _, _ => Except.error DecodeError.malformedFrame
  | f :: rest, session_key, mac_key, mac_group, chunknum, output =>
    match f.payload with
    | Payload.header _ => Except.error DecodeError.malformedFrame
    | Payload.chunk cm =>
      let nonce := toBytesBE 24 chunknum
      match checkChunkMac mac_key mac_group nonce cm with
      | Except.error e => Except.error e
      | Except.ok _ =>
        match crypto_secretbox_open cm.chunk nonce session_key with
        | none => Except.error DecodeError.decryptionFailure
        | some chunk =>
          if chunk = [] then Except.ok output
          else decodeChunks rest session_key mac_key mac_group (chunknum + 1) (output ++ chunk)

/-- Header processing of decode (format.py lines 147-159): look up this
recipient's public key in the recipients map (KeyError means unknown
recipient), open the sealed blob with the recipient private key and the
header's sender key, and read the key map's fields. -/
def recoverKeyMap (h : Header) (recipient_private : Bytes) : Except DecodeError KeyMap :=
  let recipient_public := crypto_scalarmult_base recipient_private
  match dictLookup h.recipients recipient_public with
  | none => Except.error DecodeError.unknownRecipient
  | some blob =>
    match crypto_box_open blob.boxed blob.nonce recipient_private h.sender with
    | none => Except.error DecodeError.authenticationFailure
    | some km => Except.ok km

/-- decode (format.py lines 144-185): read the header frame, recover the
key map, then run the chunk loop starting at chunk number 0 with an empty
output buffer.  Each frame's length prefix is read and discarded (line 60),
so decode consumes payloads only. -/
def decode (input : List Frame) (recipient_private : Bytes) : Except DecodeError Bytes :=
  match input with
  | [] => Except.error DecodeError.malformedFrame
  | f :: rest =>
    match f.payload with
    | Payload.chunk _ => Except.error DecodeError.malformedFrame
    | Payload.header h =>
      match recoverKeyMap h recipient_private with
      | Except.error e => Except.error e
      | Except.ok km => decodeChunks rest km.session_key km.mac_key km.mac_group 0 []

/-- Index of the last occurrence of r in a list, positions counted from j. -/
def lastIdxFrom (j : Nat) (l : List Bytes) (r : Bytes) : Option Nat :=
  match l with
  | [] => none
  | x :: xs =>
    match lastIdxFrom (j + 1) xs r with
    | some k => some k
    | none => if x = r then some j else none

/-- Last occurrence of r across a list of groups: the (group index,
position) of the final dict assignment that touches key r during encode,
group indices counted from g. -/
def lastOccFrom (g : Nat) (gs : List (List Bytes)) (r : Bytes) : Option (Nat × Nat) :=
  match gs with
  | [] => none
  | grp :: grps =>
    match lastOccFrom (g + 1) grps r with
    | some p => some p
    | none => (lastIdxFrom 0 grp r).map (fun j => (g, j))

/-- Two payloads that are identical except possibly for the macs field of a
chunk map. -/
def samePayloadExceptMacs : Payload → Payload → Prop
  | Payload.chunk c₁, Payload.chunk c₂ => c₁.chunk = c₂.chunk
  | p₁, p₂ => p₁ = p₂

/-- The plaintext carried (symbolically) by a chunk frame. -/
def framePlaintext (f : Frame) : Option Bytes :=
  match f.payload with
  | Payload.chunk cm => some cm.chunk.message
  | Payload.header _ => none

/-- Concatenation of a list of byte strings. -/
def concatAll : List Bytes → Bytes
  | [] => []
  | c :: cs => c ++ concatAll cs

/-! ### Basic facts about the chunking loop -/

theorem chunksLoop_ne_nil (fuel : Nat) : ∀ (msg : Bytes), ∀ c ∈ chunksLoop fuel msg, c ≠ [] := by
  induction fuel with
  | zero => intro msg c hc; simp [chunksLoop] at hc
  | succ n ih =>
    intro msg c hc
    by_cases hm : msg = []
    · simp [chunksLoop, hm] at hc
    · simp only [chunksLoop, hm, if_false, List.mem_cons] at hc
      rcases hc with h1 | h2
      · subst h1
        have hpos : 0 < (msg.take 100).length := by
          rw [List.length_take]
          have := List.length_pos.mpr hm
          omega
        exact List.length_pos.mp hpos
      · exact ih _ _ h2

theorem chunksLoop_concat (fuel : Nat) : ∀ (msg : Bytes), msg.length ≤ fuel →
    concatAll (chunksLoop fuel msg) = msg := by
  induction fuel with
  | zero =>
    intro msg h
    have : msg = [] := List.length_eq_zero.mp (Nat.le_zero.mp h)
    simp [this, chunksLoop, concatAll]
  | succ n ih =>
    intro msg h
    by_cases hm : msg = []
    · simp [hm, chunksLoop, concatAll]
    · simp only [chunksLoop, hm, if_false, concatAll]
      rw [ih (msg.drop 100) (by
        rw [List.length_drop]
        have := List.length_pos.mpr hm
        omega)]
      exact List.take_append_drop 100 msg

/-! ### Decoding the chunk frames produced by encode (no MACs) -/

theorem decodeChunks_frames_ok (packbLen : Payload → Nat) (sk : Bytes) (cs : List Bytes)
    (h : ∀ c ∈ cs, c ≠ []) : ∀ (i : Nat) (acc : Bytes),
    decodeChunks (chunkFramesFrom packbLen sk false [] i (cs ++ [[]])) sk none none i acc
      = Except.ok (acc ++ concatAll cs) := by
  induction cs with
  | nil =>
    intro i acc
    simp [chunkFramesFrom, mkChunkFrame, decodeChunks, checkChunkMac,
      crypto_secretbox, crypto_secretbox_open, concatAll]
  | cons c cs ih =>
    intro i acc
    have hc : c ≠ [] := h c (by simp)
    have hcs : ∀ x ∈ cs, x ≠ [] := fun x hx => h x (by simp [hx])
    simp only [List.cons_append, chunkFramesFrom, decodeChunks, mkChunkFrame,
      checkChunkMac, crypto_secretbox, crypto_secretbox_open, and_self, if_true,
      if_pos, concatAll]
    simp only [hc, if_false, List.append_eq]
    rw [ih hcs (i + 1) (acc ++ c)]
    simp [List.append_assoc]

/-- C1: for every plaintext P and every single-group recipient list
[[r_pub]] with r_pub derived from r_priv, decoding the encoding with r_priv
returns exactly P.  Quantifying over the randomness source and the
serializer length function covers every run of encode. -/
theorem roundtrip_single_group (packbLen : Payload → Nat) (rand : EncodeRand)
    (sender_private r_priv : Bytes) (P : Bytes) :
    decode (encode packbLen rand sender_private [[crypto_scalarmult_base r_priv]] P) r_priv
      = Except.ok P := by
  have hne : ∀ c ∈ chunksLoop P.length P, c ≠ [] := chunksLoop_ne_nil _ _
  have hjoin : concatAll (chunksLoop P.length P) = P := chunksLoop_concat _ _ (le_refl _)
  simp only [encode, decode, recoverKeyMap, encodeRecipients, needMacs,
    buildRecipientsFrom, insertGroupRecipients, dictInsert, dictLookup,
    sealRecipient, crypto_box, crypto_box_open, perRecipientMap, encodeMacKeys,
    chunks_with_empty, List.length_cons, List.length_nil]
  simp only [show decide (1 < 0 + 1) = false from rfl, Bool.false_eq_true, if_false,
    if_pos rfl, and_self, if_true]
  rw [decodeChunks_frames_ok packbLen rand.session_key _ hne 0 []]
  simp [hjoin]

/-- C4: decoding with a private key whose derived public key is absent from
the header's recipients map fails with UnknownRecipient (the KeyError at
format.py line 149) and returns no plaintext. -/
theorem decode_unknown_recipient (L : Nat) (h : Header) (rest : List Frame) (r_priv : Bytes)
    (habs : dictLookup h.recipients (crypto_scalarmult_base r_priv) = none) :
    decode (⟨L, Payload.header h⟩ :: rest) r_priv
      = Except.error DecodeError.unknownRecipient := by
  simp [decode, recoverKeyMap, habs]

theorem decode_unknown_recipient_witness :
    decode [⟨3, Payload.header ⟨1, [9, 7], []⟩⟩] [1]
      = Except.error DecodeError.unknownRecipient :=
  decode_unknown_recipient 3 ⟨1, [9, 7], []⟩ [] [1] rfl

/-! ### Unfolding equations for the decoder -/

theorem decodeChunks_cons_header (L : Nat) (hd : Header) (rest : List Frame) (sk : Bytes)
    (mk : Option Bytes) (mg : Option Nat) (i : Nat) (acc : Bytes) :
    decodeChunks (⟨L, Payload.header hd⟩ :: rest) sk mk mg i acc
      = Except.error DecodeError.malformedFrame := rfl

theorem decodeChunks_cons_chunk_err (L : Nat) (cm : ChunkMap) (rest : List Frame) (sk : Bytes)
    (mk : Option Bytes) (mg : Option Nat) (i : Nat) (acc : Bytes) (e : DecodeError)
    (hc : checkChunkMac mk mg (toBytesBE 24 i) cm = Except.error e) :
    decodeChunks (⟨L, Payload.chunk cm⟩ :: rest) sk mk mg i acc = Except.error e := by
  simp [decodeChunks, hc]

theorem decodeChunks_cons_chunk_badopen (L : Nat) (cm : ChunkMap) (rest : List Frame)
    (sk : Bytes) (mk : Option Bytes) (mg : Option Nat) (i : Nat) (acc : Bytes) (u : Unit)
    (hc : checkChunkMac mk mg (toBytesBE 24 i) cm = Except.ok u)
    (ho : crypto_secretbox_open cm.chunk (toBytesBE 24 i) sk = none) :
    decodeChunks (⟨L, Payload.chunk cm⟩ :: rest) sk mk mg i acc
      = Except.error DecodeError.decryptionFailure := by
  simp [decodeChunks, hc, ho]

theorem decodeChunks_cons_chunk_ok (L : Nat) (cm : ChunkMap) (rest : List Frame)
    (sk : Bytes) (mk : Option Bytes) (mg : Option Nat) (i : Nat) (acc chunk : Bytes) (u : Unit)
    (hc : checkChunkMac mk mg (toBytesBE 24 i) cm = Except.ok u)
    (ho : crypto_secretbox_open cm.chunk (toBytesBE 24 i) sk = some chunk) :
    decodeChunks (⟨L, Payload.chunk cm⟩ :: rest) sk mk mg i acc
      = if chunk = [] then Except.ok acc
        else decodeChunks rest sk mk mg (i + 1) (acc ++ chunk) := by
  simp [decodeChunks, hc, ho]

theorem decode_cons_header_err (L : Nat) (hd : Header) (rest : List Frame) (priv : Bytes)
    (e : DecodeError) (hk : recoverKeyMap hd priv = Except.error e) :
    decode (⟨L, Payload.header hd⟩ :: rest) priv = Except.error e := by
  simp [decode, hk]

theorem decode_cons_header_ok (L : Nat) (hd : Header) (rest : List Frame) (priv : Bytes)
    (km : KeyMap) (hk : recoverKeyMap hd priv = Except.ok km) :
    decode (⟨L, Payload.header hd⟩ :: rest) priv
      = decodeChunks rest km.session_key km.mac_key km.mac_group 0 [] := by
  simp [decode, hk]

/-! ### Appending frames after a successful chunk loop does not change it -/

theorem decodeChunks_append (extra : List Frame) :
    ∀ (fs : List Frame) (sk : Bytes) (mk : Option Bytes) (mg : Option Nat) (i : Nat)
      (acc out : Bytes), decodeChunks fs sk mk mg i acc = Except.ok out →
      decodeChunks (fs ++ extra) sk mk mg i acc = Except.ok out := by
  intro fs
  induction fs with
  | nil => intro sk mk mg i acc out h; simp [decodeChunks] at h
  | cons f rest ih =>
    intro sk mk mg i acc out h
    obtain ⟨L, p⟩ := f
    cases p with
    | header h0 => rw [decodeChunks_cons_header] at h; exact absurd h (by simp)
    | chunk cm =>
      rw [List.cons_append]
      cases hc : checkChunkMac mk mg (toBytesBE 24 i) cm with
      | error e =>
        rw [decodeChunks_cons_chunk_err _ _ _ _ _ _ _ _ _ hc] at h
        exact absurd h (by simp)
      | ok u =>
        cases ho : crypto_secretbox_open cm.chunk (toBytesBE 24 i) sk with
        | none =>
          rw [decodeChunks_cons_chunk_badopen _ _ _ _ _ _ _ _ _ hc ho] at h
          exact absurd h (by simp)
        | some chunk =>
          rw [decodeChunks_cons_chunk_ok _ _ _ _ _ _ _ _ _ _ hc ho] at h
          rw [decodeChunks_cons_chunk_ok _ _ _ _ _ _ _ _ _ _ hc ho]
          by_cases hch : chunk = []
          · simpa [hch] using h
          · simp only [hch, if_false] at h ⊢
            exact ih _ _ _ _ _ _ h

/-- C7: decode returns its accumulated output at the first chunk whose
decrypted plaintext is empty (first conjunct: a chunk frame that passes the
MAC check and decrypts to the empty plaintext ends the loop immediately
with the output gathered so far, whatever frames follow), and appending
arbitrary extra frames to any stream decode accepts leaves the result
unchanged (second conjunct), so frames after the terminal chunk never
contribute to the output. -/
theorem decode_stops_at_first_empty_chunk :
    (∀ (L : Nat) (cm : ChunkMap) (rest : List Frame) (sk : Bytes) (mk : Option Bytes)
       (mg : Option Nat) (i : Nat) (acc : Bytes),
       checkChunkMac mk mg (toBytesBE 24 i) cm = Except.ok () →
       crypto_secretbox_open cm.chunk (toBytesBE 24 i) sk = some [] →
       decodeChunks (⟨L, Payload.chunk cm⟩ :: rest) sk mk mg i acc = Except.ok acc) ∧
    (∀ (input extra : List Frame) (priv out : Bytes),
       decode input priv = Except.ok out → decode (input ++ extra) priv = Except.ok out) := by
  constructor
  · intro L cm rest sk mk mg i acc hmac hopen
    rw [decodeChunks_cons_chunk_ok _ _ _ _ _ _ _ _ _ _ hmac hopen]
    simp
  · intro input extra priv out h
    match input with
    | [] => simp [decode] at h
    | f :: rest =>
      obtain ⟨L, p⟩ := f
      cases p with
      | chunk cm => simp [decode] at h
      | header hd =>
        rw [List.cons_append]
        cases hk : recoverKeyMap hd priv with
        | error e =>
          rw [decode_cons_header_err _ _ _ _ _ hk] at h
          exact absurd h (by simp)
        | ok km =>
          rw [decode_cons_header_ok _ _ _ _ _ hk] at h
          rw [decode_cons_header_ok _ _ _ _ _ hk]
          exact decodeChunks_append extra _ _ _ _ _ _ _ h

/-- Concrete serializer length function for the evaluation examples. -/
def exLen : Payload → Nat := fun _ => 0

/-- Concrete randomness source for the evaluation examples. -/
def exRand : EncodeRand := ⟨[1], fun g => [2, g], fun g j => [3, g, j]⟩

theorem decode_stops_at_first_empty_chunk_witness :
    decode (encode exLen exRand [7] [[crypto_scalarmult_base [5]]] [10, 20] ++
        [⟨0, Payload.chunk ⟨⟨[1], [2], [3]⟩, none⟩⟩]) [5] = Except.ok [10, 20] :=
  decode_stops_at_first_empty_chunk.2
    (encode exLen exRand [7] [[crypto_scalarmult_base [5]]] [10, 20])
    [⟨0, Payload.chunk ⟨⟨[1], [2], [3]⟩, none⟩⟩] [5] [10, 20] (by rfl)

/-! ### The decoder is insensitive to frame length prefixes -/

theorem decodeChunks_payload_eq :
    ∀ (fs₁ fs₂ : List Frame), fs₁.map Frame.payload = fs₂.map Frame.payload →
      ∀ (sk : Bytes) (mk : Option Bytes) (mg : Option Nat) (i : Nat) (acc : Bytes),
      decodeChunks fs₁ sk mk mg i acc = decodeChunks fs₂ sk mk mg i acc := by
  intro fs₁
  induction fs₁ with
  | nil =>
    intro fs₂ h sk mk mg i acc
    cases fs₂ with
    | nil => rfl
    | cons g gs => simp at h
  | cons f rest ih =>
    intro fs₂ h sk mk mg i acc
    cases fs₂ with
    | nil => simp at h
    | cons g rest₂ =>
      simp only [List.map_cons, List.cons.injEq] at h
      obtain ⟨hp, hrest⟩ := h
      obtain ⟨L₁, p₁⟩ := f
      obtain ⟨L₂, p₂⟩ := g
      have hp' : p₁ = p₂ := hp
      subst hp'
      cases p₁ with
      | header hd => rw [decodeChunks_cons_header, decodeChunks_cons_header]
      | chunk cm =>
        cases hc : checkChunkMac mk mg (toBytesBE 24 i) cm with
        | error e =>
          rw [decodeChunks_cons_chunk_err _ _ _ _ _ _ _ _ _ hc,
            decodeChunks_cons_chunk_err _ _ _ _ _ _ _ _ _ hc]
        | ok u =>
          cases ho : crypto_secretbox_open cm.chunk (toBytesBE 24 i) sk with
          | none =>
            rw [decodeChunks_cons_chunk_badopen _ _ _ _ _ _ _ _ _ hc ho,
              decodeChunks_cons_chunk_badopen _ _ _ _ _ _ _ _ _ hc ho]
          | some chunk =>
            rw [decodeChunks_cons_chunk_ok _ _ _ _ _ _ _ _ _ _ hc ho,
              decodeChunks_cons_chunk_ok _ _ _ _ _ _ _ _ _ _ hc ho]
            by_cases hch : chunk = []
            · simp [hch]
            · simp only [hch, if_false]
              exact ih rest₂ hrest sk mk mg (i + 1) (acc ++ chunk)

/-- C8: the decoder never uses a frame's length prefix (read and discarded,
format.py lines 58-61): two input streams with the same frame payloads and
arbitrary, possibly different, length prefixes decode identically. -/
theorem decode_ignores_length_prefixes (s₁ s₂ : List Frame) (priv : Bytes)
    (h : s₁.map Frame.payload = s₂.map Frame.payload) :
    decode s₁ priv = decode s₂ priv := by
  cases s₁ with
  | nil =>
    cases s₂ with
    | nil => rfl
    | cons g gs => simp at h
  | cons f rest =>
    cases s₂ with
    | nil => simp at h
    | cons g rest₂ =>
      simp only [List.map_cons, List.cons.injEq] at h
      obtain ⟨hp, hrest⟩ := h
      obtain ⟨L₁, p₁⟩ := f
      obtain ⟨L₂, p₂⟩ := g
      have hp' : p₁ = p₂ := hp
      subst hp'
      cases p₁ with
      | chunk cm => rfl
      | header hd =>
        cases hk : recoverKeyMap hd priv with
        | error e =>
          rw [decode_cons_header_err _ _ _ _ _ hk, decode_cons_header_err _ _ _ _ _ hk]
        | ok km =>
          rw [decode_cons_header_ok _ _ _ _ _ hk, decode_cons_header_ok _ _ _ _ _ hk]
          exact decodeChunks_payload_eq rest rest₂ hrest _ _ _ _ _

theorem decode_ignores_length_prefixes_witness :
    decode [⟨0, Payload.header ⟨1, [9, 7], []⟩⟩, ⟨5, Payload.chunk ⟨⟨[], [], []⟩, none⟩⟩] [1]
      = decode [⟨77, Payload.header ⟨1, [9, 7], []⟩⟩, ⟨99, Payload.chunk ⟨⟨[], [], []⟩, none⟩⟩] [1] :=
  decode_ignores_length_prefixes
    [⟨0, Payload.header ⟨1, [9, 7], []⟩⟩, ⟨5, Payload.chunk ⟨⟨[], [], []⟩, none⟩⟩]
    [⟨77, Payload.header ⟨1, [9, 7], []⟩⟩, ⟨99, Payload.chunk ⟨⟨[], [], []⟩, none⟩⟩]
    [1] (by rfl)

/-! ### A decoder without a MAC key never reads the macs fields -/

theorem decodeChunks_ignores_macs :
    ∀ {fs₁ fs₂ : List Frame},
      List.Forall₂ (fun a b => samePayloadExceptMacs a.payload b.payload) fs₁ fs₂ →
      ∀ (sk : Bytes) (mg : Option Nat) (i : Nat) (acc : Bytes),
      decodeChunks fs₁ sk none mg i acc = decodeChunks fs₂ sk none mg i acc := by
  intro fs₁ fs₂ hrel
  induction hrel with
  | nil => intro sk mg i acc; rfl
  | @cons a b as bs hab hrest ih =>
    intro sk mg i acc
    obtain ⟨L₁, p₁⟩ := a
    obtain ⟨L₂, p₂⟩ := b
    cases p₁ with
    | header hd₁ =>
      cases p₂ with
      | header hd₂ =>
        rw [decodeChunks_cons_header, decodeChunks_cons_header]
      | chunk cm₂ =>
        have : (Payload.header hd₁) = (Payload.chunk cm₂) := hab
        exact absurd this (by simp)
    | chunk cm₁ =>
      cases p₂ with
      | header hd₂ =>
        have : (Payload.chunk cm₁) = (Payload.header hd₂) := hab
        exact absurd this (by simp)
      | chunk cm₂ =>
        have hchunk : cm₁.chunk = cm₂.chunk := hab
        have hmac₁ : checkChunkMac none mg (toBytesBE 24 i) cm₁ = Except.ok () := rfl
        have hmac₂ : checkChunkMac none mg (toBytesBE 24 i) cm₂ = Except.ok () := rfl
        cases ho : crypto_secretbox_open cm₁.chunk (toBytesBE 24 i) sk with
        | none =>
          rw [decodeChunks_cons_chunk_badopen _ _ _ _ _ _ _ _ _ hmac₁ ho,
            decodeChunks_cons_chunk_badopen _ _ _ _ _ _ _ _ _ hmac₂ (by rw [← hchunk]; exact ho)]
        | some chunk =>
          rw [decodeChunks_cons_chunk_ok _ _ _ _ _ _ _ _ _ _ hmac₁ ho,
            decodeChunks_cons_chunk_ok _ _ _ _ _ _ _ _ _ _ hmac₂ (by rw [← hchunk]; exact ho)]
          by_cases hch : chunk = []
          · simp [hch]
          · simp only [hch, if_false]
            exact ih sk mg (i + 1) (acc ++ chunk)

/-- C9: when the recovered per-recipient key map carries no mac_key, the
decoder never reads any macs field (the check at format.py line 167 is
skipped): two streams with the same header and chunk ciphertexts, differing
only in the macs fields of their chunk frames, decode identically. -/
theorem decode_no_mac_ignores_macs (f₁ f₂ : Frame) (hd : Header) (rest₁ rest₂ : List Frame)
    (priv : Bytes) (km : KeyMap)
    (h₁ : f₁.payload = Payload.header hd) (h₂ : f₂.payload = Payload.header hd)
    (hkm : recoverKeyMap hd priv = Except.ok km) (hnomac : km.mac_key = none)
    (hrel : List.Forall₂ (fun a b => samePayloadExceptMacs a.payload b.payload) rest₁ rest₂) :
    decode (f₁ :: rest₁) priv = decode (f₂ :: rest₂) priv := by
  obtain ⟨L₁, p₁⟩ := f₁
  obtain ⟨L₂, p₂⟩ := f₂
  have h₁' : p₁ = Payload.header hd := h₁
  have h₂' : p₂ = Payload.header hd := h₂
  subst h₁'
  subst h₂'
  rw [decode_cons_header_ok _ _ _ _ _ hkm, decode_cons_header_ok _ _ _ _ _ hkm, hnomac]
  exact decodeChunks_ignores_macs hrel _ _ _ _

theorem decode_no_mac_ignores_macs_witness :
    decode [⟨0, Payload.header ⟨1, [9, 7],
        [([9, 1], ⟨[0], crypto_box ⟨[4], none, none⟩ [0] [7] [9, 1]⟩)]⟩⟩,
      ⟨0, Payload.chunk ⟨⟨[], toBytesBE 24 0, [4]⟩, none⟩⟩] [1]
    = decode [⟨0, Payload.header ⟨1, [9, 7],
        [([9, 1], ⟨[0], crypto_box ⟨[4], none, none⟩ [0] [7] [9, 1]⟩)]⟩⟩,
      ⟨0, Payload.chunk ⟨⟨[], toBytesBE 24 0, [4]⟩,
        some [chunkMac [8] (toBytesBE 24 0) ⟨[], toBytesBE 24 0, [4]⟩]⟩⟩] [1] :=
  decode_no_mac_ignores_macs
    ⟨0, Payload.header ⟨1, [9, 7],
      [([9, 1], ⟨[0], crypto_box ⟨[4], none, none⟩ [0] [7] [9, 1]⟩)]⟩⟩
    ⟨0, Payload.header ⟨1, [9, 7],
      [([9, 1], ⟨[0], crypto_box ⟨[4], none, none⟩ [0] [7] [9, 1]⟩)]⟩⟩
    ⟨1, [9, 7], [([9, 1], ⟨[0], crypto_box ⟨[4], none, none⟩ [0] [7] [9, 1]⟩)]⟩
    [⟨0, Payload.chunk ⟨⟨[], toBytesBE 24 0, [4]⟩, none⟩⟩]
    [⟨0, Payload.chunk ⟨⟨[], toBytesBE 24 0, [4]⟩,
      some [chunkMac [8] (toBytesBE 24 0) ⟨[], toBytesBE 24 0, [4]⟩]⟩⟩]
    [1] ⟨[4], none, none⟩ rfl rfl (by rfl) rfl
    (List.Forall₂.cons rfl List.Forall₂.nil)

/-- C3: with MACs active, the decoder selects its own group's tag by the
mac_group index, recomputes the truncated HMAC-SHA-512 over nonce and
ciphertext under its group MAC key (chunkMac), and compares (the
hmac.compare_digest call at format.py line 173, modelled as tag equality):
on mismatch the chunk fails with AuthenticationFailure whatever the
ciphertext or the rest of the stream, so symmetric decryption of that chunk
is never attempted (first conjunct); on match the loop proceeds to
symmetric decryption (second conjunct). -/
theorem mac_verification_gate (L : Nat) (sk mk : Bytes) (g : Nat) (cm : ChunkMap)
    (ms : List MacTag) (t : MacTag) (rest : List Frame) (i : Nat) (acc : Bytes)
    (hmacs : cm.macs = some ms) (hget : ms.get? g = some t) :
    (t ≠ chunkMac mk (toBytesBE 24 i) cm.chunk →
       decodeChunks (⟨L, Payload.chunk cm⟩ :: rest) sk (some mk) (some g) i acc
         = Except.error DecodeError.authenticationFailure) ∧
    (t = chunkMac mk (toBytesBE 24 i) cm.chunk →
       decodeChunks (⟨L, Payload.chunk cm⟩ :: rest) sk (some mk) (some g) i acc
         = match crypto_secretbox_open cm.chunk (toBytesBE 24 i) sk with
           | none => Except.error DecodeError.decryptionFailure
           | some chunk =>
             if chunk = [] then Except.ok acc
             else decodeChunks rest sk (some mk) (some g) (i + 1) (acc ++ chunk)) := by
  rw [List.get?_eq_getElem?] at hget
  constructor
  · intro hne
    have hc : checkChunkMac (some mk) (some g) (toBytesBE 24 i) cm
        = Except.error DecodeError.authenticationFailure := by
      simp [checkChunkMac, hmacs, hget, hne]
    exact decodeChunks_cons_chunk_err _ _ _ _ _ _ _ _ _ hc
  · intro heq
    have hc : checkChunkMac (some mk) (some g) (toBytesBE 24 i) cm = Except.ok () := by
      simp [checkChunkMac, hmacs, hget, heq]
    cases ho : crypto_secretbox_open cm.chunk (toBytesBE 24 i) sk with
    | none =>
      rw [decodeChunks_cons_chunk_badopen _ _ _ _ _ _ _ _ _ hc ho]
    | some chunk =>
      rw [decodeChunks_cons_chunk_ok _ _ _ _ _ _ _ _ _ _ hc ho]

theorem mac_verification_gate_witness :
    decodeChunks [⟨0, Payload.chunk ⟨⟨[5], toBytesBE 24 0, [9]⟩,
        some [chunkMac [8] (toBytesBE 24 0) ⟨[6], toBytesBE 24 0, [9]⟩]⟩⟩]
      [9] (some [8]) (some 0) 0 []
      = Except.error DecodeError.authenticationFailure :=
  (mac_verification_gate 0 [9] [8] 0
    ⟨⟨[5], toBytesBE 24 0, [9]⟩, some [chunkMac [8] (toBytesBE 24 0) ⟨[6], toBytesBE 24 0, [9]⟩]⟩
    [chunkMac [8] (toBytesBE 24 0) ⟨[6], toBytesBE 24 0, [9]⟩]
    (chunkMac [8] (toBytesBE 24 0) ⟨[6], toBytesBE 24 0, [9]⟩)
    [] 0 [] rfl rfl).1 (by decide)

/-! ### Big-endian nonce encoding -/

theorem toBytesBE_length (n : Nat) : ∀ i, (toBytesBE n i).length = n := by
  induction n with
  | zero => intro i; rfl
  | succ n ih =>
    intro i
    show (toBytesBE n (i / 256) ++ [i % 256]).length = n + 1
    simp [ih]

theorem fromBytesBE_append_single (bs : Bytes) (b : Nat) :
    fromBytesBE (bs ++ [b]) = 256 * fromBytesBE bs + b := by
  induction bs with
  | nil => simp [fromBytesBE]
  | cons c cs ih =>
    show c * 256 ^ (cs ++ [b]).length + fromBytesBE (cs ++ [b]) = _
    rw [ih]
    have hlen : (cs ++ [b]).length = cs.length + 1 := by simp
    rw [hlen, pow_succ]
    show c * (256 ^ cs.length * 256) + (256 * fromBytesBE cs + b)
      = 256 * (c * 256 ^ cs.length + fromBytesBE cs) + b
    ring

theorem fromBytesBE_toBytesBE (n : Nat) : ∀ i, fromBytesBE (toBytesBE n i) = i % 256 ^ n := by
  induction n with
  | zero => intro i; simp [toBytesBE, fromBytesBE, Nat.mod_one]
  | succ n ih =>
    intro i
    show fromBytesBE (toBytesBE n (i / 256) ++ [i % 256]) = i % 256 ^ (n + 1)
    rw [fromBytesBE_append_single, ih (i / 256)]
    have hK : 0 < 256 ^ n := Nat.pos_pow_of_pos n (by norm_num)
    have key : (256 * (i / 256) + i % 256) % (256 * 256 ^ n)
        = 256 * (i / 256 % 256 ^ n) + i % 256 := by
      rw [Nat.add_mod, Nat.mul_mod_mul_left]
      have hr : i % 256 < 256 := Nat.mod_lt _ (by norm_num)
      have h256 : 256 * 1 ≤ 256 * 256 ^ n := Nat.mul_le_mul_left 256 hK
      have h2 : (i % 256) % (256 * 256 ^ n) = i % 256 := Nat.mod_eq_of_lt (by omega)
      rw [h2]
      apply Nat.mod_eq_of_lt
      have hq : i / 256 % 256 ^ n < 256 ^ n := Nat.mod_lt _ hK
      omega
    calc 256 * (i / 256 % 256 ^ n) + i % 256
        = (256 * (i / 256) + i % 256) % (256 * 256 ^ n) := key.symm
      _ = i % 256 ^ (n + 1) := by
          rw [Nat.div_add_mod i 256, pow_succ, Nat.mul_comm (256 ^ n) 256]

/-! ### The frames written by the chunk loop, by position -/

theorem chunkFramesFrom_get? (packbLen : Payload → Nat) (sk : Bytes) (nm : Bool)
    (mkeys : List Bytes) : ∀ (cs : List Bytes) (i j : Nat) (f : Frame),
    (chunkFramesFrom packbLen sk nm mkeys i cs).get? j = some f →
    ∃ c, cs.get? j = some c ∧ f = mkChunkFrame packbLen sk nm mkeys (i + j) c := by
  intro cs
  induction cs with
  | nil => intro i j f h; simp [chunkFramesFrom] at h
  | cons c cs ih =>
    intro i j f h
    cases j with
    | zero =>
      refine ⟨c, rfl, ?_⟩
      have h' : some (mkChunkFrame packbLen sk nm mkeys i c) = some f := h
      rw [← Option.some.inj h', Nat.add_zero]
    | succ j =>
      have h' : (chunkFramesFrom packbLen sk nm mkeys (i + 1) cs).get? j = some f := h
      obtain ⟨c', hc', hf⟩ := ih (i + 1) j f h'
      refine ⟨c', hc', ?_⟩
      rw [hf, show i + 1 + j = i + (j + 1) from by omega]

/-- C5: the nonce for chunk i is the big-endian encoding of i into 24
bytes, on both sides.  Conjuncts: toBytesBE always produces exactly n
bytes; it is the big-endian encoding (decoding recovers i whenever i fits);
the j-th chunk frame emitted by encode (counting from 0 after the header)
carries a ciphertext sealed with nonce toBytesBE 24 j under the session
key; and the decoder at running chunk number i checks the MAC and opens the
ciphertext with nonce toBytesBE 24 i. -/
theorem chunk_nonce_bigendian :
    (∀ (n i : Nat), (toBytesBE n i).length = n) ∧
    (∀ (n i : Nat), i < 256 ^ n → fromBytesBE (toBytesBE n i) = i) ∧
    (∀ (packbLen : Payload → Nat) (rand : EncodeRand) (sp : Bytes)
       (gs : List (List Bytes)) (msg : Bytes) (j : Nat) (f : Frame),
       (encode packbLen rand sp gs msg).tail.get? j = some f →
       ∃ cm, f.payload = Payload.chunk cm ∧
         cm.chunk.nonce = toBytesBE 24 j ∧ cm.chunk.key = rand.session_key) ∧
    (∀ (L : Nat) (cm : ChunkMap) (rest : List Frame) (sk : Bytes) (mk : Option Bytes)
       (mg : Option Nat) (i : Nat) (acc : Bytes),
       decodeChunks (⟨L, Payload.chunk cm⟩ :: rest) sk mk mg i acc
         = match checkChunkMac mk mg (toBytesBE 24 i) cm with
           | Except.error e => Except.error e
           | Except.ok _ =>
             match crypto_secretbox_open cm.chunk (toBytesBE 24 i) sk with
             | none => Except.error DecodeError.decryptionFailure
             | some chunk =>
               if chunk = [] then Except.ok acc
               else decodeChunks rest sk mk mg (i + 1) (acc ++ chunk)) := by
  refine ⟨fun n i => toBytesBE_length n i, ?_, ?_, ?_⟩
  · intro n i hi
    rw [fromBytesBE_toBytesBE n i]
    exact Nat.mod_eq_of_lt hi
  · intro packbLen rand sp gs msg j f h
    have h' : (chunkFramesFrom packbLen rand.session_key (needMacs gs)
        (encodeMacKeys rand gs) 0 (chunks_with_empty msg)).get? j = some f := h
    obtain ⟨c, hc, hf⟩ := chunkFramesFrom_get? _ _ _ _ _ 0 j f h'
    subst hf
    rw [Nat.zero_add]
    exact ⟨_, rfl, rfl, rfl⟩
  · intro L cm rest sk mk mg i acc
    rfl

theorem chunk_nonce_bigendian_witness :
    fromBytesBE (toBytesBE 24 300) = 300 ∧
    (∃ cm, (mkChunkFrame exLen exRand.session_key (needMacs [[crypto_scalarmult_base [5]]])
        (encodeMacKeys exRand [[crypto_scalarmult_base [5]]]) 0 []).payload = Payload.chunk cm ∧
      cm.chunk.nonce = toBytesBE 24 0 ∧ cm.chunk.key = exRand.session_key) :=
  ⟨chunk_nonce_bigendian.2.1 24 300 (by decide),
   chunk_nonce_bigendian.2.2.1 exLen exRand [7] [[crypto_scalarmult_base [5]]] [] 0
     (mkChunkFrame exLen exRand.session_key (needMacs [[crypto_scalarmult_base [5]]])
        (encodeMacKeys exRand [[crypto_scalarmult_base [5]]]) 0 []) (by rfl)⟩

/-! ### Chunk sizes and the 250-byte scenario -/

theorem chunksLoop_le100 (fuel : Nat) : ∀ (msg : Bytes), ∀ c ∈ chunksLoop fuel msg,
    c.length ≤ 100 := by
  induction fuel with
  | zero => intro msg c hc; simp [chunksLoop] at hc
  | succ n ih =>
    intro msg c hc
    by_cases hm : msg = []
    · simp [chunksLoop, hm] at hc
    · simp only [chunksLoop, hm, if_false, List.mem_cons] at hc
      rcases hc with h1 | h2
      · subst h1
        rw [List.length_take]
        exact Nat.min_le_left _ _
      · exact ih _ _ h2

theorem chunksLoop_cons (fuel : Nat) (msg : Bytes) (h : msg ≠ []) :
    chunksLoop (fuel + 1) msg = msg.take 100 :: chunksLoop fuel (msg.drop 100) := by
  simp [chunksLoop, h]

theorem chunksLoop_nil_msg (fuel : Nat) : chunksLoop fuel [] = [] := by
  cases fuel <;> simp [chunksLoop]

theorem map_framePlaintext_chunkFramesFrom (packbLen : Payload → Nat) (sk : Bytes)
    (nm : Bool) (mkeys : List Bytes) : ∀ (cs : List Bytes) (i : Nat),
    (chunkFramesFrom packbLen sk nm mkeys i cs).map framePlaintext = cs.map some := by
  intro cs
  induction cs with
  | nil => intro i; rfl
  | cons c cs ih =>
    intro i
    show framePlaintext (mkChunkFrame packbLen sk nm mkeys i c) ::
      (chunkFramesFrom packbLen sk nm mkeys (i + 1) cs).map framePlaintext = some c :: cs.map some
    rw [ih (i + 1)]
    rfl

theorem length_chunkFramesFrom (packbLen : Payload → Nat) (sk : Bytes) (nm : Bool)
    (mkeys : List Bytes) : ∀ (cs : List Bytes) (i : Nat),
    (chunkFramesFrom packbLen sk nm mkeys i cs).length = cs.length := by
  intro cs
  induction cs with
  | nil => intro i; rfl
  | cons c cs ih =>
    intro i
    show (chunkFramesFrom packbLen sk nm mkeys (i + 1) cs).length + 1 = cs.length + 1
    rw [ih (i + 1)]

/-- C6: encode splits the plaintext into consecutive segments of at most
100 bytes (which concatenate back to the plaintext) and appends exactly one
empty terminal segment, each segment becoming one chunk frame after the
header; for a 250-byte message the segments have lengths 100, 100, 50, 0,
so encode emits the header frame plus exactly 4 chunk frames in that
order. -/
theorem chunking_100_with_terminal_empty (packbLen : Payload → Nat) (rand : EncodeRand)
    (sp : Bytes) (gs : List (List Bytes)) (msg : Bytes) :
    (∀ c ∈ chunksLoop msg.length msg, c.length ≤ 100 ∧ c ≠ []) ∧
    concatAll (chunksLoop msg.length msg) = msg ∧
    chunks_with_empty msg = chunksLoop msg.length msg ++ [[]] ∧
    ((encode packbLen rand sp gs msg).tail).map framePlaintext
      = (chunks_with_empty msg).map some ∧
    (msg.length = 250 →
      (chunks_with_empty msg).map List.length = [100, 100, 50, 0] ∧
      (encode packbLen rand sp gs msg).length = 5 ∧
      (encode packbLen rand sp gs msg).head?
        = some ⟨packbLen (Payload.header
              ⟨1, crypto_scalarmult_base sp, encodeRecipients sp rand gs⟩),
            Payload.header ⟨1, crypto_scalarmult_base sp, encodeRecipients sp rand gs⟩⟩) := by
  refine ⟨?_, chunksLoop_concat _ _ (le_refl _), rfl, ?_, ?_⟩
  · intro c hc
    exact ⟨chunksLoop_le100 _ _ c hc, chunksLoop_ne_nil _ _ c hc⟩
  · exact map_framePlaintext_chunkFramesFrom packbLen rand.session_key (needMacs gs)
      (encodeMacKeys rand gs) (chunks_with_empty msg) 0
  · intro hlen
    have h0 : msg ≠ [] := by intro h; rw [h] at hlen; simp at hlen
    have h1 : msg.drop 100 ≠ [] := by
      have hl : (msg.drop 100).length = 150 := by simp [hlen]
      intro h; rw [h] at hl; simp at hl
    have h2 : (msg.drop 100).drop 100 ≠ [] := by
      have hl : ((msg.drop 100).drop 100).length = 50 := by simp [hlen]
      intro h; rw [h] at hl; simp at hl
    have h3 : ((msg.drop 100).drop 100).drop 100 = [] := by
      apply List.length_eq_zero.mp
      simp [hlen]
    have hch : chunks_with_empty msg
        = [msg.take 100, (msg.drop 100).take 100, ((msg.drop 100).drop 100).take 100, []] := by
      rw [chunks_with_empty, hlen]
      rw [show (250 : Nat) = 249 + 1 from rfl, chunksLoop_cons _ _ h0]
      rw [show (249 : Nat) = 248 + 1 from rfl, chunksLoop_cons _ _ h1]
      rw [show (248 : Nat) = 247 + 1 from rfl, chunksLoop_cons _ _ h2]
      rw [h3, chunksLoop_nil_msg]
      rfl
    refine ⟨?_, ?_, rfl⟩
    · rw [hch]
      simp [hlen]
    · show (chunkFramesFrom packbLen rand.session_key (needMacs gs)
          (encodeMacKeys rand gs) 0 (chunks_with_empty msg)).length + 1 = 5
      rw [length_chunkFramesFrom, hch]
      rfl

theorem chunking_100_with_terminal_empty_witness :
    (chunks_with_empty (List.replicate 250 0)).map List.length = [100, 100, 50, 0] ∧
    (encode exLen exRand [7] [[crypto_scalarmult_base [5]]] (List.replicate 250 0)).length = 5 :=
  ⟨((chunking_100_with_terminal_empty exLen exRand [7] [[crypto_scalarmult_base [5]]]
      (List.replicate 250 0)).2.2.2.2 (List.length_replicate 250 0)).1,
   ((chunking_100_with_terminal_empty exLen exRand [7] [[crypto_scalarmult_base [5]]]
      (List.replicate 250 0)).2.2.2.2 (List.length_replicate 250 0)).2.1⟩

/-! ### Python dict semantics: lookup after insert, keys, membership -/

theorem dictLookup_dictInsert (m : RecipMap) (k : Bytes) (v : SealedBlob) :
    ∀ r, dictLookup (dictInsert m k v) r = if k = r then some v else dictLookup m r := by
  induction m with
  | nil => intro r; simp [dictInsert, dictLookup]
  | cons kv rest ih =>
    intro r
    obtain ⟨k₀, v₀⟩ := kv
    by_cases h : k₀ = k
    · subst h
      by_cases hr : k₀ = r <;> simp [dictInsert, dictLookup, hr]
    · by_cases hr : k₀ = r
      · subst hr
        have hkr : ¬k = k₀ := fun he => h he.symm
        simp [dictInsert, dictLookup, h, hkr]
      · simp [dictInsert, dictLookup, h, hr, ih r]

theorem mem_dictInsert (m : RecipMap) (k : Bytes) (v : SealedBlob) :
    ∀ kv ∈ dictInsert m k v, kv ∈ m ∨ kv = (k, v) := by
  induction m with
  | nil =>
    intro kv h
    simp only [dictInsert, List.mem_singleton] at h
    right; exact h
  | cons kv₀ rest ih =>
    intro kv h
    obtain ⟨k₀, v₀⟩ := kv₀
    by_cases hk : k₀ = k
    · subst hk
      simp only [dictInsert, if_pos rfl] at h
      rcases List.mem_cons.mp h with h1 | h2
      · right; exact h1
      · left; simp [h2]
    · simp only [dictInsert, if_neg hk] at h
      rcases List.mem_cons.mp h with h1 | h2
      · left; simp [h1]
      · rcases ih kv h2 with h3 | h4
        · left; simp [h3]
        · right; exact h4

theorem keys_dictInsert (m : RecipMap) (k : Bytes) (v : SealedBlob) :
    (dictInsert m k v).map Prod.fst
      = if k ∈ m.map Prod.fst then m.map Prod.fst else m.map Prod.fst ++ [k] := by
  induction m with
  | nil => simp [dictInsert]
  | cons kv rest ih =>
    obtain ⟨k₀, v₀⟩ := kv
    by_cases h : k₀ = k
    · subst h; simp [dictInsert]
    · have hk : ¬k = k₀ := fun he => h he.symm
      simp only [dictInsert, if_neg h, List.map_cons, ih]
      by_cases hm : k ∈ rest.map Prod.fst <;>
        simp [hm, List.mem_cons, hk]

theorem nodup_keys_dictInsert (m : RecipMap) (k : Bytes) (v : SealedBlob)
    (h : (m.map Prod.fst).Nodup) : ((dictInsert m k v).map Prod.fst).Nodup := by
  rw [keys_dictInsert]
  by_cases hm : k ∈ m.map Prod.fst
  · simp [hm, h]
  · simp only [hm, if_false]
    refine h.append (List.nodup_singleton k) ?_
    intro x hx hx'
    rw [List.mem_singleton] at hx'
    subst hx'
    exact hm hx

theorem mem_keys_of_dictLookup (m : RecipMap) (r : Bytes) (v : SealedBlob)
    (h : dictLookup m r = some v) : r ∈ m.map Prod.fst := by
  induction m with
  | nil => simp [dictLookup] at h
  | cons kv rest ih =>
    obtain ⟨k₀, v₀⟩ := kv
    by_cases hr : k₀ = r
    · subst hr; simp
    · simp only [dictLookup, if_neg hr] at h
      simp [ih h]

/-! ### What the recipient-building loops put into the map -/

theorem dictLookup_insertGroupRecipients (sp : Bytes) (rand : EncodeRand) (nm : Bool)
    (g : Nat) : ∀ (grp : List Bytes) (j : Nat) (m : RecipMap) (r : Bytes),
    dictLookup (insertGroupRecipients sp rand nm g j grp m) r
      = match lastIdxFrom j grp r with
        | some j' => some (sealRecipient sp
            (perRecipientMap rand.session_key nm g (rand.mac_key g)) (rand.box_nonce g j') r)
        | none => dictLookup m r := by
  intro grp
  induction grp with
  | nil => intro j m r; rfl
  | cons x xs ih =>
    intro j m r
    show dictLookup (insertGroupRecipients sp rand nm g (j + 1) xs
        (dictInsert m x (sealRecipient sp
          (perRecipientMap rand.session_key nm g (rand.mac_key g)) (rand.box_nonce g j) x))) r
      = _
    rw [ih (j + 1)]
    have hcons : lastIdxFrom j (x :: xs) r
        = match lastIdxFrom (j + 1) xs r with
          | some k => some k
          | none => if x = r then some j else none := rfl
    rw [hcons]
    cases hl : lastIdxFrom (j + 1) xs r with
    | some k => rfl
    | none =>
      simp only [dictLookup_dictInsert]
      by_cases hxr : x = r
      · subst hxr; simp
      · simp [hxr]

theorem dictLookup_buildRecipientsFrom (sp : Bytes) (rand : EncodeRand) (nm : Bool) :
    ∀ (gs : List (List Bytes)) (g : Nat) (m : RecipMap) (r : Bytes),
    dictLookup (buildRecipientsFrom sp rand nm g gs m) r
      = match lastOccFrom g gs r with
        | some p => some (sealRecipient sp
            (perRecipientMap rand.session_key nm p.1 (rand.mac_key p.1))
            (rand.box_nonce p.1 p.2) r)
        | none => dictLookup m r := by
  intro gs
  induction gs with
  | nil => intro g m r; rfl
  | cons grp grps ih =>
    intro g m r
    show dictLookup (buildRecipientsFrom sp rand nm (g + 1) grps
        (insertGroupRecipients sp rand nm g 0 grp m)) r = _
    rw [ih (g + 1)]
    have hcons : lastOccFrom g (grp :: grps) r
        = match lastOccFrom (g + 1) grps r with
          | some p => some p
          | none => (lastIdxFrom 0 grp r).map (fun j => (g, j)) := rfl
    rw [hcons]
    cases ho : lastOccFrom (g + 1) grps r with
    | some p => rfl
    | none =>
      simp only [dictLookup_insertGroupRecipients]
      cases hl : lastIdxFrom 0 grp r with
      | some k => rfl
      | none => rfl

theorem nodup_keys_insertGroupRecipients (sp : Bytes) (rand : EncodeRand) (nm : Bool)
    (g : Nat) : ∀ (grp : List Bytes) (j : Nat) (m : RecipMap),
    (m.map Prod.fst).Nodup →
    ((insertGroupRecipients sp rand nm g j grp m).map Prod.fst).Nodup := by
  intro grp
  induction grp with
  | nil => intro j m h; exact h
  | cons x xs ih =>
    intro j m h
    exact ih (j + 1) _ (nodup_keys_dictInsert _ _ _ h)

theorem nodup_keys_buildRecipientsFrom (sp : Bytes) (rand : EncodeRand) (nm : Bool) :
    ∀ (gs : List (List Bytes)) (g : Nat) (m : RecipMap),
    (m.map Prod.fst).Nodup →
    ((buildRecipientsFrom sp rand nm g gs m).map Prod.fst).Nodup := by
  intro gs
  induction gs with
  | nil => intro g m h; exact h
  | cons grp grps ih =>
    intro g m h
    exact ih (g + 1) _ (nodup_keys_insertGroupRecipients sp rand nm g grp 0 m h)

theorem mem_insertGroupRecipients (sp : Bytes) (rand : EncodeRand) (nm : Bool) (g : Nat) :
    ∀ (grp : List Bytes) (j : Nat) (m : RecipMap),
    ∀ kv ∈ insertGroupRecipients sp rand nm g j grp m,
    kv ∈ m ∨ ∃ j' r, kv = (r, sealRecipient sp
        (perRecipientMap rand.session_key nm g (rand.mac_key g)) (rand.box_nonce g j') r) := by
  intro grp
  induction grp with
  | nil => intro j m kv h; left; exact h
  | cons x xs ih =>
    intro j m kv h
    rcases ih (j + 1) _ kv h with h1 | h2
    · rcases mem_dictInsert _ _ _ kv h1 with h3 | h4
      · left; exact h3
      · right; exact ⟨j, x, h4⟩
    · right; exact h2

theorem mem_buildRecipientsFrom (sp : Bytes) (rand : EncodeRand) (nm : Bool) :
    ∀ (gs : List (List Bytes)) (g : Nat) (m : RecipMap),
    ∀ kv ∈ buildRecipientsFrom sp rand nm g gs m,
    kv ∈ m ∨ ∃ g' j' r, kv = (r, sealRecipient sp
        (perRecipientMap rand.session_key nm g' (rand.mac_key g')) (rand.box_nonce g' j') r) := by
  intro gs
  induction gs with
  | nil => intro g m kv h; left; exact h
  | cons grp grps ih =>
    intro g m kv h
    rcases ih (g + 1) _ kv h with h1 | h2
    · rcases mem_insertGroupRecipients sp rand nm g grp 0 m kv h1 with h3 | h4
      · left; exact h3
      · right
        obtain ⟨j', r, hr⟩ := h4
        exact ⟨g, j', r, hr⟩
    · right; exact h2

/-! ### Locating the final dict assignment for a recipient -/

theorem lastIdxFrom_none_of_not_mem (r : Bytes) : ∀ (l : List Bytes) (j : Nat), r ∉ l →
    lastIdxFrom j l r = none := by
  intro l
  induction l with
  | nil => intro j h; rfl
  | cons x xs ih =>
    intro j h
    have hx : ¬x = r := fun he => h (by simp [he])
    have hxs : r ∉ xs := fun hm => h (by simp [hm])
    show (match lastIdxFrom (j + 1) xs r with
      | some k => some k
      | none => if x = r then some j else none) = none
    rw [ih (j + 1) hxs]
    simp [hx]

theorem lastIdxFrom_some_of_mem (r : Bytes) : ∀ (l : List Bytes) (j : Nat), r ∈ l →
    ∃ k, lastIdxFrom j l r = some k := by
  intro l
  induction l with
  | nil => intro j h; simp at h
  | cons x xs ih =>
    intro j h
    cases hlast : lastIdxFrom (j + 1) xs r with
    | some k =>
      refine ⟨k, ?_⟩
      show (match lastIdxFrom (j + 1) xs r with
        | some k => some k
        | none => if x = r then some j else none) = some k
      rw [hlast]
    | none =>
      have hxs : r ∉ xs := by
        intro hm
        obtain ⟨k, hk⟩ := ih (j + 1) hm
        rw [hk] at hlast
        exact Option.noConfusion hlast
      have hx : x = r := by
        rcases List.mem_cons.mp h with h1 | h2
        · exact h1.symm
        · exact absurd h2 hxs
      refine ⟨j, ?_⟩
      show (match lastIdxFrom (j + 1) xs r with
        | some k => some k
        | none => if x = r then some j else none) = some j
      rw [hlast]
      simp [hx]

theorem lastOccFrom_none_of_not_mem (r : Bytes) : ∀ (gs : List (List Bytes)) (g : Nat),
    (∀ grp ∈ gs, r ∉ grp) → lastOccFrom g gs r = none := by
  intro gs
  induction gs with
  | nil => intro g h; rfl
  | cons grp grps ih =>
    intro g h
    show (match lastOccFrom (g + 1) grps r with
      | some p => some p
      | none => (lastIdxFrom 0 grp r).map (fun j => (g, j))) = none
    rw [ih (g + 1) (fun g' hg' => h g' (by simp [hg'])),
      lastIdxFrom_none_of_not_mem r grp 0 (h grp (by simp))]
    rfl

theorem lastOccFrom_of_get? (r : Bytes) : ∀ (gs : List (List Bytes)) (g k : Nat)
    (grp : List Bytes), gs.get? k = some grp → r ∈ grp → gs.flatten.Nodup →
    ∃ j, lastOccFrom g gs r = some (g + k, j) := by
  intro gs
  induction gs with
  | nil => intro g k grp h; simp [List.get?] at h
  | cons grp₀ grps ih =>
    intro g k grp hget hmem hnodup
    rw [List.flatten_cons, List.nodup_append] at hnodup
    cases k with
    | zero =>
      have hgrp : grp₀ = grp := Option.some.inj hget
      subst hgrp
      have hnotin : ∀ g' ∈ grps, r ∉ g' := by
        intro g' hg' hr
        exact hnodup.2.2 hmem (List.mem_flatten.mpr ⟨g', hg', hr⟩)
      obtain ⟨j, hj⟩ := lastIdxFrom_some_of_mem r grp₀ 0 hmem
      refine ⟨j, ?_⟩
      show (match lastOccFrom (g + 1) grps r with
        | some p => some p
        | none => (lastIdxFrom 0 grp₀ r).map (fun j => (g, j))) = some (g + 0, j)
      rw [lastOccFrom_none_of_not_mem r grps (g + 1) hnotin, hj]
      simp
    | succ k =>
      have hget' : grps.get? k = some grp := hget
      obtain ⟨j, hj⟩ := ih (g + 1) k grp hget' hmem hnodup.2.1
      refine ⟨j, ?_⟩
      show (match lastOccFrom (g + 1) grps r with
        | some p => some p
        | none => (lastIdxFrom 0 grp₀ r).map (fun j => (g, j))) = some (g + (k + 1), j)
      rw [hj, show g + 1 + k = g + (k + 1) from by omega]

/-! ### Shape of the frames and payloads encode builds -/

theorem mem_chunkFramesFrom (packbLen : Payload → Nat) (sk : Bytes) (nm : Bool)
    (mkeys : List Bytes) : ∀ (cs : List Bytes) (i : Nat),
    ∀ f ∈ chunkFramesFrom packbLen sk nm mkeys i cs,
    ∃ n c, f = mkChunkFrame packbLen sk nm mkeys n c := by
  intro cs
  induction cs with
  | nil => intro i f h; simp [chunkFramesFrom] at h
  | cons c cs ih =>
    intro i f h
    have h' : f ∈ mkChunkFrame packbLen sk nm mkeys i c ::
        chunkFramesFrom packbLen sk nm mkeys (i + 1) cs := h
    rcases List.mem_cons.mp h' with h1 | h2
    · exact ⟨i, c, h1⟩
    · exact ih (i + 1) f h2

theorem mkChunkFrame_macs_false (packbLen : Payload → Nat) (sk : Bytes) (mkeys : List Bytes)
    (n : Nat) (c : Bytes) :
    ∃ cm, (mkChunkFrame packbLen sk false mkeys n c).payload = Payload.chunk cm ∧
      cm.macs = none :=
  ⟨_, rfl, rfl⟩

theorem mkChunkFrame_macs_true (packbLen : Payload → Nat) (sk : Bytes) (mkeys : List Bytes)
    (n : Nat) (c : Bytes) :
    ∃ cm, (mkChunkFrame packbLen sk true mkeys n c).payload = Payload.chunk cm ∧
      cm.chunk = crypto_secretbox c (toBytesBE 24 n) sk ∧
      cm.macs = some (mkeys.map (fun mk =>
        chunkMac mk (toBytesBE 24 n) (crypto_secretbox c (toBytesBE 24 n) sk))) :=
  ⟨_, rfl, rfl, rfl⟩

/-- C2: with at most one recipient group no MAC keys are generated, sealed
payloads carry only the session key, and chunk frames carry no macs field;
with more than one group one MAC key exists per group, each recipient's
sealed payload carries its group's index and that group's key (under the
spec invariant that a recipient belongs to exactly one group), and every
chunk frame carries one 32-byte tag per group ordered by group index. -/
theorem mac_key_policy (packbLen : Payload → Nat) (rand : EncodeRand) (sp : Bytes)
    (gs : List (List Bytes)) (msg : Bytes) :
    (gs.length ≤ 1 →
      encodeMacKeys rand gs = [] ∧
      (∀ kv ∈ encodeRecipients sp rand gs,
        kv.2.boxed.message.mac_group = none ∧ kv.2.boxed.message.mac_key = none) ∧
      (∀ f ∈ (encode packbLen rand sp gs msg).tail,
        ∃ cm, f.payload = Payload.chunk cm ∧ cm.macs = none)) ∧
    (1 < gs.length →
      (encodeMacKeys rand gs).length = gs.length ∧
      (gs.flatten.Nodup →
        ∀ (g : Nat) (grp : List Bytes), gs.get? g = some grp → ∀ r ∈ grp,
          ∃ j, dictLookup (encodeRecipients sp rand gs) r
            = some (sealRecipient sp ⟨rand.session_key, some g, some (rand.mac_key g)⟩
                (rand.box_nonce g j) r)) ∧
      (∀ f ∈ (encode packbLen rand sp gs msg).tail,
        ∃ cm ms, f.payload = Payload.chunk cm ∧ cm.macs = some ms ∧
          ms.length = gs.length ∧
          (∀ g, g < gs.length →
            ms.get? g = some (chunkMac (rand.mac_key g) cm.chunk.nonce cm.chunk)) ∧
          (∀ t ∈ ms, t.truncLen = 32))) := by
  constructor
  · intro hle
    have hnm : needMacs gs = false := by
      simp only [needMacs, decide_eq_false_iff_not]
      omega
    refine ⟨by simp [encodeMacKeys, hnm], ?_, ?_⟩
    · intro kv hkv
      have hkv' : kv ∈ buildRecipientsFrom sp rand (needMacs gs) 0 gs [] := hkv
      rcases mem_buildRecipientsFrom sp rand (needMacs gs) gs 0 [] kv hkv' with h | h
      · simp at h
      · obtain ⟨g', j', r, heq⟩ := h
        rw [heq, hnm]
        simp [sealRecipient, crypto_box, perRecipientMap]
    · intro f hf
      have hf' : f ∈ chunkFramesFrom packbLen rand.session_key (needMacs gs)
          (encodeMacKeys rand gs) 0 (chunks_with_empty msg) := hf
      obtain ⟨n, c, hfc⟩ := mem_chunkFramesFrom _ _ _ _ _ 0 f hf'
      rw [hnm] at hfc
      subst hfc
      exact mkChunkFrame_macs_false _ _ _ _ _
  · intro hgt
    have hnm : needMacs gs = true := by
      simp only [needMacs, decide_eq_true_eq]
      omega
    have hkeys : encodeMacKeys rand gs = (List.range gs.length).map rand.mac_key := by
      simp [encodeMacKeys, hnm]
    refine ⟨by simp [hkeys], ?_, ?_⟩
    · intro hnodup g grp hget r hr
      obtain ⟨j, hocc⟩ := lastOccFrom_of_get? r gs 0 g grp hget hr hnodup
      rw [Nat.zero_add] at hocc
      refine ⟨j, ?_⟩
      show dictLookup (buildRecipientsFrom sp rand (needMacs gs) 0 gs []) r = _
      rw [dictLookup_buildRecipientsFrom, hocc, hnm]
      rfl
    · intro f hf
      have hf' : f ∈ chunkFramesFrom packbLen rand.session_key (needMacs gs)
          (encodeMacKeys rand gs) 0 (chunks_with_empty msg) := hf
      obtain ⟨n, c, hfc⟩ := mem_chunkFramesFrom _ _ _ _ _ 0 f hf'
      rw [hnm, hkeys] at hfc
      subst hfc
      obtain ⟨cm, hp, hchunk, hmacs⟩ := mkChunkFrame_macs_true packbLen rand.session_key
        ((List.range gs.length).map rand.mac_key) n c
      refine ⟨cm, _, hp, hmacs, ?_, ?_, ?_⟩
      · simp
      · intro g hg
        rw [List.get?_eq_getElem?, List.getElem?_map, List.getElem?_map,
          List.getElem?_range hg, hchunk]
        rfl
      · intro t ht
        obtain ⟨mk0, hmk0, hteq⟩ := List.mem_map.mp ht
        rw [← hteq]
        rfl

theorem mac_key_policy_witness :
    encodeMacKeys exRand [[[9, 1]]] = [] ∧
    (encodeMacKeys exRand [[[9, 1]], [[9, 2]]]).length = 2 ∧
    (∃ j, dictLookup (encodeRecipients [7] exRand [[[9, 1]], [[9, 2]]]) [9, 2]
      = some (sealRecipient [7] ⟨exRand.session_key, some 1, some (exRand.mac_key 1)⟩
          (exRand.box_nonce 1 j) [9, 2])) :=
  ⟨((mac_key_policy exLen exRand [7] [[[9, 1]]] []).1 (by decide)).1,
   ((mac_key_policy exLen exRand [7] [[[9, 1]], [[9, 2]]] []).2 (by decide)).1,
   ((mac_key_policy exLen exRand [7] [[[9, 1]], [[9, 2]]] []).2 (by decide)).2.1
     (by decide) 1 [[9, 2]] rfl [9, 2] (by decide)⟩

/-- C10: if the same recipient public key appears in more than one group,
encode still succeeds and the header's recipients map holds exactly one
entry for that key, namely the sealed payload built by the final dict
assignment — the one for the highest-indexed group (and position) that
contains the key — so that recipient will decode with that group's
mac_group and mac_key.  lastOccFrom locates that final assignment. -/
theorem duplicate_recipient_last_group_wins (packbLen : Payload → Nat) (rand : EncodeRand)
    (sp : Bytes) (gs : List (List Bytes)) (msg : Bytes) (r : Bytes) (g j : Nat)
    (hlast : lastOccFrom 0 gs r = some (g, j)) (hmul : 1 < gs.length) :
    dictLookup (encodeRecipients sp rand gs) r
      = some (sealRecipient sp ⟨rand.session_key, some g, some (rand.mac_key g)⟩
          (rand.box_nonce g j) r) ∧
    ((encodeRecipients sp rand gs).map Prod.fst).Nodup ∧
    r ∈ (encodeRecipients sp rand gs).map Prod.fst ∧
    (encode packbLen rand sp gs msg).head?
      = some ⟨packbLen (Payload.header
            ⟨1, crypto_scalarmult_base sp, encodeRecipients sp rand gs⟩),
          Payload.header ⟨1, crypto_scalarmult_base sp, encodeRecipients sp rand gs⟩⟩ := by
  have hnm : needMacs gs = true := by
    simp only [needMacs, decide_eq_true_eq]
    omega
  have hlook : dictLookup (encodeRecipients sp rand gs) r
      = some (sealRecipient sp ⟨rand.session_key, some g, some (rand.mac_key g)⟩
          (rand.box_nonce g j) r) := by
    show dictLookup (buildRecipientsFrom sp rand (needMacs gs) 0 gs []) r = _
    rw [dictLookup_buildRecipientsFrom, hlast, hnm]
    rfl
  exact ⟨hlook,
    nodup_keys_buildRecipientsFrom sp rand (needMacs gs) gs 0 [] (by simp),
    mem_keys_of_dictLookup _ _ _ hlook, rfl⟩

theorem duplicate_recipient_last_group_wins_witness :
    dictLookup (encodeRecipients [7] exRand [[[9, 1]], [[9, 1]]]) [9, 1]
      = some (sealRecipient [7] ⟨exRand.session_key, some 1, some (exRand.mac_key 1)⟩
          (exRand.box_nonce 1 0) [9, 1]) ∧
    ((encodeRecipients [7] exRand [[[9, 1]], [[9, 1]]]).map Prod.fst).Nodup ∧
    [9, 1] ∈ (encodeRecipients [7] exRand [[[9, 1]], [[9, 1]]]).map Prod.fst ∧
    (encode exLen exRand [7] [[[9, 1]], [[9, 1]]] [4]).head?
      = some ⟨exLen (Payload.header
            ⟨1, crypto_scalarmult_base [7], encodeRecipients [7] exRand [[[9, 1]], [[9, 1]]]⟩),
          Payload.header ⟨1, crypto_scalarmult_base [7],
            encodeRecipients [7] exRand [[[9, 1]], [[9, 1]]]⟩⟩ :=
  duplicate_recipient_last_group_wins exLen exRand [7] [[[9, 1]], [[9, 1]]] [4] [9, 1] 1 0
    rfl (by decide)
